import Mathlib

/-!
Verification of the httprouter radix-tree router.

The Go sources are embedded shallowly: Go strings become `List Char`,
`uint8`/`uint32` arithmetic is done in `Nat` with explicit wrap-around where
the source can overflow, in-place pointer mutation becomes explicit rebuilding
of the affected subtree, and a `panic` becomes an error value that carries the
tree as mutated so far (Go's `panic` unwinds without undoing prior writes).
Tree-walking loops take an explicit fuel argument so that every definition
computes by structural recursion.
-/

namespace Httprouter

/-- Go strings viewed as byte/char sequences. -/
abbrev Str := List Char

/-- `path[a:b]` slicing on char lists. -/
def slice (s : Str) (a b : Nat) : Str :=
  (s.drop a).take (b - a)

/-- Length of the longest common prefix of two strings
(the `for i < max && path[i] == prefix[i]` loop in `addRoute`). -/
def lcpLen : Str → Str → Nat
  | c :: s, d :: t => if c = d then lcpLen s t + 1 else 0
  | _, _ => 0

/-- Go `uint8` decrement (`numParams--` wraps at zero). -/
def u8dec (x : Nat) : Nat := (x + 255) % 256

/-- Go `uint32` increment (`n.priority++` wraps at `2^32`). -/
def u32inc (x : Nat) : Nat := (x + 1) % 4294967296

/-- Go `uint32` decrement (`n.priority - 1` in the edge split). -/
def u32dec (x : Nat) : Nat := (x + 4294967295) % 4294967296

/-- The counting loop of `countParams` in tree.go: increments for every
`':'` and `'*'` byte of the path. -/
def countWild : Str → Nat
  | [] => 0
  | c :: rest => if c ≠ ':' ∧ c ≠ '*' then countWild rest else countWild rest + 1

/-- `countParams` (tree.go): number of wildcard bytes, saturated at
`maxParamCount = ^uint8(0) = 255`. -/
def countParams (path : Str) : Nat :=
  let n := countWild path
  if 255 ≤ n then 255 else n

/-- `nodeType` (tree.go). -/
inductive NType where
  | static
  | root
  | param
  | catchAll
deriving DecidableEq, Repr

/-- `node` (tree.go).  `pfx` holds the child index bytes followed by the edge
prefix: the first `children.length` chars are the indices, the rest is the
prefix.  `handle` is an opaque handler id (`none` = Go `nil`). -/
inductive RNode where
  | mk (pfx : Str) (children : List RNode) (handle : Option Nat)
       (wildChild : Bool) (nType : NType) (maxParams : Nat) (priority : Nat)

def RNode.pfx : RNode → Str
  | .mk p _ _ _ _ _ _ => p

def RNode.children : RNode → List RNode
  | .mk _ c _ _ _ _ _ => c

def RNode.handle : RNode → Option Nat
  | .mk _ _ h _ _ _ _ => h

def RNode.wildChild : RNode → Bool
  | .mk _ _ _ w _ _ _ => w

def RNode.nType : RNode → NType
  | .mk _ _ _ _ t _ _ => t

def RNode.maxParams : RNode → Nat
  | .mk _ _ _ _ _ m _ => m

def RNode.priority : RNode → Nat
  | .mk _ _ _ _ _ _ p => p

/-- The zero `node` (`new(node)` in `Router.Handle`). -/
def emptyNode : RNode := .mk [] [] none false .static 0 0

/-- A `Param` is a captured (key, value) pair (router.go). -/
abbrev ParamKV := Str × Str

/-- `Params.ByName` (router.go): value of the first `Param` whose key matches,
empty string when none matches. -/
def byName : List ParamKV → Str → Str
  | [], _ => []
  | p :: rest, name => if p.1 = name then p.2 else byName rest name

/-- Field update helpers for `RNode` (the Go code assigns fields in place). -/
def RNode.setPfx : RNode → Str → RNode
  | .mk _ c h w t m p, x => .mk x c h w t m p

def RNode.setChildren : RNode → List RNode → RNode
  | .mk f _ h w t m p, x => .mk f x h w t m p

def RNode.setHandle : RNode → Option Nat → RNode
  | .mk f c _ w t m p, x => .mk f c x w t m p

def RNode.setWildChild : RNode → Bool → RNode
  | .mk f c h _ t m p, x => .mk f c h x t m p

def RNode.setNType : RNode → NType → RNode
  | .mk f c h w _ m p, x => .mk f c h w x m p

def RNode.setMaxParams : RNode → Nat → RNode
  | .mk f c h w t _ p, x => .mk f c h w t x p

def RNode.setPriority : RNode → Nat → RNode
  | .mk f c h w t m _, x => .mk f c h w t m x

/-- Parameter buffer: `make(Params, 0, cap)` plus its contents.  The capacity
is tracked so that the `p = p[:i+1]` expansion can fail exactly like the Go
slice expression does when the capacity is exceeded. -/
structure PBuf where
  cap : Nat
  items : List ParamKV
deriving DecidableEq, Repr

/-- `i := len(p); p = p[:i+1]; p[i] = kv` — `none` models the Go slice-bounds
panic when the preallocated capacity is exceeded. -/
def pbufPush (b : PBuf) (kv : ParamKV) : Option PBuf :=
  if b.items.length < b.cap then some ⟨b.cap, b.items ++ [kv]⟩ else none

/-- Result of `getValue`: the Go `(handle, p, tsr)` triple, or a runtime
panic, or the walk ran out of fuel. -/
inductive GVRes where
  | res (handle : Option Nat) (ps : Option PBuf) (tsr : Bool)
  | err (msg : String)
  | out
deriving DecidableEq, Repr

/-- The child-index scan of `getValue` (`for i, max, c := 0, len(n.children),
path[0]; i < max; i++`): walk the children in order comparing the lead byte
against the index chars `n.pfx[i]`; running past the end of `pfx` is a Go
index-out-of-range panic. -/
def scanChild : Str → List RNode → Char → Except String (Option RNode)
  | _, [], _ => .ok none
  | [], _ :: _, _ => .error "runtime error: index out of range"
  | i :: idx, child :: rest, c =>
    if c = i then .ok (some child) else scanChild idx rest c

/-- The trailing-slash check on the `'/'` child in the `path == prefix` case
of `getValue`; reading `children[0]` of a childless catchAll node panics. -/
def slashChildTSR (c : RNode) : Except String Bool :=
  if c.pfx.length - c.children.length = 1 ∧ c.handle.isSome then .ok true
  else if c.nType = .catchAll then
    match c.children with
    | [] => .error "runtime error: index out of range"
    | g :: _ => .ok g.handle.isSome
  else .ok false

/-- `getValue` (tree.go), with fuel for the `walk` loop.  Returns the Go
`(handle, p, tsr)` triple; `err` models a runtime panic (including the
explicit `panic("invalid node type")`). -/
def getValueF : Nat → RNode → Str → Option PBuf → GVRes
  | 0, _, _, _ => .out
  | fuel + 1, n, path, p =>
    let pfxTail := n.pfx.drop n.children.length
    if pfxTail.length < path.length ∧ path.take pfxTail.length = pfxTail then
      let path := path.drop pfxTail.length
      if n.wildChild = false then
        match scanChild (n.pfx.take n.children.length) n.children (path.headD ' ') with
        | .error e => .err e
        | .ok (some child) => getValueF fuel child path p
        | .ok none => .res none p (decide (path = ['/']) && n.handle.isSome)
      else
        match n.children with
        | [] => .err "runtime error: index out of range"
        | w :: _ =>
          match w.nType with
          | .param =>
            let pEnd := (path.takeWhile (fun c => c ≠ '/')).length
            let buf := match p with
              | none => PBuf.mk w.maxParams []
              | some b => b
            match pbufPush buf (w.pfx.drop (w.children.length + 1), path.take pEnd) with
            | none => .err "runtime error: slice bounds out of range"
            | some buf =>
              if pEnd < path.length then
                match w.children with
                | c :: _ => getValueF fuel c (path.drop pEnd) (some buf)
                | [] => .res none (some buf) (decide (path.length = pEnd + 1))
              else if w.handle.isSome then .res w.handle (some buf) false
              else
                match w.children with
                | [c] => .res none (some buf)
                    (c.handle.isSome && decide (c.pfx.drop c.children.length = ['/']))
                | _ => .res none (some buf) false
          | .catchAll =>
            let buf := match p with
              | none => PBuf.mk w.maxParams []
              | some b => b
            match pbufPush buf (w.pfx.drop 2, path) with
            | none => .err "runtime error: slice bounds out of range"
            | some buf => .res w.handle (some buf) false
          | _ => .err "invalid node type"
    else if path = pfxTail then
      if n.handle.isSome then .res n.handle p false
      else if path = ['/'] ∧ n.wildChild = true ∧ n.nType ≠ .root then .res none p true
      else
        match scanChild (n.pfx.take n.children.length) n.children '/' with
        | .error e => .err e
        | .ok none => .res none p false
        | .ok (some c) =>
          match slashChildTSR c with
          | .error e => .err e
          | .ok t => .res none p t
    else
      .res none p (decide (path = ['/']) ||
        (decide (pfxTail.length = path.length + 1) &&
         decide (pfxTail.getD path.length ' ' = '/') &&
         decide (path = pfxTail.take (pfxTail.length - 1)) && n.handle.isSome))

/-- Swap the children at positions `i` and `i+1`. -/
def swapAdj (cs : List RNode) (i : Nat) : List RNode :=
  let a := cs.getD i emptyNode
  let b := cs.getD (i + 1) emptyNode
  (cs.set i b).set (i + 1) a

/-- The move-to-front loop of `incrementChildPrio`: bubble the child at the
given position forward while the predecessor's priority is strictly less. -/
def bubbleUp (prio : Nat) : List RNode → Nat → List RNode × Nat
  | cs, 0 => (cs, 0)
  | cs, pos + 1 =>
    if (cs.getD pos emptyNode).priority < prio then
      bubbleUp prio (swapAdj cs pos) pos
    else (cs, pos + 1)

/-- `incrementChildPrio` (tree.go): bump the priority of the child at `pos`,
reorder, and rebuild the index chars of `pfx`; returns the new position. -/
def incrementChildPrio (n : RNode) (pos : Nat) : RNode × Nat :=
  let c0 := n.children.getD pos emptyNode
  let c1 := c0.setPriority (u32inc c0.priority)
  let prio := c1.priority
  let (cs1, newPos) := bubbleUp prio (n.children.set pos c1) pos
  let pfx1 :=
    if newPos ≠ pos then
      n.pfx.take newPos ++ [n.pfx.getD pos ' '] ++ slice n.pfx newPos pos ++
        n.pfx.drop (pos + 1)
    else n.pfx
  ((n.setChildren cs1).setPfx pfx1, newPos)

/-- The wildcard-end scan of `insertChild` (`for end < max && path[end] != '/'`):
returns the name length up to the next `'/'` or path end, or an error when
another `':'`/`'*'` occurs inside the segment. -/
def wildEnd : Str → Except Unit Nat
  | [] => .ok 0
  | c :: rest =>
    if c = '/' then .ok 0
    else if c = ':' ∨ c = '*' then .error ()
    else
      match wildEnd rest with
      | .ok k => .ok (k + 1)
      | .error e => .error e

/-- `strings.Index`: position of the first occurrence of `pat` in `s`
(our callers only use it when `pat` does occur). -/
def strIndex (s pat : Str) : Nat :=
  if pat.isPrefixOf s then 0
  else
    match s with
    | [] => 0
    | _ :: t => strIndex t pat + 1

/-- The scanning loop of `insertChild` (tree.go).  `rest = path.drop i` is the
unscanned part; `offset` is the count of already handled bytes.  The returned
node carries all mutations made before a panic (`some msg`), since a Go panic
does not undo prior writes. -/
def icLoop (path fullPath : Str) (handle : Nat) :
    Str → Nat → Nat → Nat → RNode → RNode × Option String
  | [], _, offset, numParams, n =>
    if numParams = 0 then
      (((n.setPfx (n.pfx.take n.children.length ++ path.drop offset)).setHandle
        (some handle)), none)
    else (n, some "runtime error: index out of range")
  | c :: rest', i, offset, numParams, n =>
    if numParams = 0 then
      (((n.setPfx (n.pfx.take n.children.length ++ path.drop offset)).setHandle
        (some handle)), none)
    else
      if c ≠ ':' ∧ c ≠ '*' then
          icLoop path fullPath handle rest' (i + 1) offset numParams n
        else
          match wildEnd rest' with
          | .error _ =>
            (n, some ("only one wildcard per path segment is allowed, has: '" ++
              String.mk (path.drop i) ++ "' in path '" ++ String.mk fullPath ++ "'"))
          | .ok k =>
            if 0 < n.children.length then
              (n, some ("wildcard route '" ++ String.mk (slice path i (i + 1 + k)) ++
                "' conflicts with existing children in path '" ++
                String.mk fullPath ++ "'"))
            else if i + 1 + k - i < 2 then
              (n, some ("wildcards must be named with a non-empty name in path '" ++
                String.mk fullPath ++ "'"))
            else if c = ':' then
              if i + 1 + k < path.length then
                let gchild := RNode.mk [] [] none false .static (u8dec numParams) 1
                let (g1, e) := icLoop path fullPath handle rest' (i + 1) (i + 1 + k)
                  (u8dec numParams) gchild
                let pchild := RNode.mk
                  ('/' :: slice path (if 0 < i then i else offset) (i + 1 + k)) [g1] none
                  false .param numParams 1
                ((((n.setPfx (if 0 < i then ':' :: slice path offset i
                    else ':' :: n.pfx)).setChildren [pchild]).setWildChild true), e)
              else
                let pchild := RNode.mk [] [] none false .param numParams 1
                let (p1, e) := icLoop path fullPath handle rest' (i + 1)
                  (if 0 < i then i else offset) (u8dec numParams) pchild
                ((((n.setPfx (if 0 < i then ':' :: slice path offset i
                    else ':' :: n.pfx)).setChildren [p1]).setWildChild true), e)
            else
              if i + 1 + k ≠ path.length ∨ 1 < numParams then
                (n, some ("catch-all routes are only allowed at the end of the path in path '" ++
                  String.mk fullPath ++ "'"))
              else if 0 < n.pfx.length - n.children.length ∧
                  n.pfx.getLast? = some '/' then
                (n, some ("catch-all conflicts with existing handle for the path segment root in path '" ++
                  String.mk fullPath ++ "'"))
              else if i = 0 then
                (n, some "runtime error: index out of range")
              else if path.getD (i - 1) ' ' ≠ '/' then
                (n, some ("no / before catch-all in path '" ++
                  String.mk fullPath ++ "'"))
              else
                let leaf := RNode.mk (path.drop (i - 1)) [] (some handle) false
                  .catchAll 1 1
                let inner := RNode.mk ['/'] [leaf] none true .catchAll 1 1
                (((n.setPfx (path.getD (i - 1) ' ' :: slice path offset (i - 1))).setChildren
                  [inner]), none)

/-- `insertChild` (tree.go). -/
def insertChildF (numParams : Nat) (path fullPath : Str) (handle : Nat)
    (n : RNode) : RNode × Option String :=
  icLoop path fullPath handle path 0 0 numParams n

/-- The child-index scan of `addRoute`, returning the child position. -/
def findChildPos : Str → List RNode → Char → Nat → Except String (Option Nat)
  | _, [], _, _ => .ok none
  | [], _ :: _, _, _ => .error "runtime error: index out of range"
  | i :: idx, _ :: rest, c, pos =>
    if c = i then .ok (some pos) else findChildPos idx rest c (pos + 1)

/-- `if numParams > n.maxParams { n.maxParams = numParams }` (tree.go). -/
def updMax (n : RNode) (numParams : Nat) : RNode :=
  if n.maxParams < numParams then n.setMaxParams numParams else n

/-- The edge split of `addRoute` (tree.go): the former suffix of the edge
becomes a single child carrying the former children/handle, the node keeps
the common prefix. -/
def splitEdge (n : RNode) (pfxTail path : Str) (i : Nat) : RNode :=
  let child := RNode.mk (n.pfx.take n.children.length ++ pfxTail.drop i)
    n.children n.handle n.wildChild .static
    (n.children.foldl (fun a c => if a < c.maxParams then c.maxParams else a) 0)
    (u32dec n.priority)
  (((n.setPfx (pfxTail.getD i ' ' :: path.take i)).setChildren
    [child]).setHandle none).setWildChild false

/-- One iteration of the `walk` loop of `addRoute` (tree.go); `recur` is the
next iteration (`continue walk`).  The returned node replaces the walked node;
on `some msg` (a Go panic) it still carries every mutation made up to the
panic point. -/
def walkBody (fullPath : Str) (handle : Nat)
    (recur : RNode → Str → Nat → RNode × Option String)
    (n0 : RNode) (path0 : Str) (numParams0 : Nat) : RNode × Option String :=
  let numParams := numParams0
  let n := updMax n0 numParams
  let pfxTail := n.pfx.drop n.children.length
  let i := lcpLen path0 pfxTail
  let n := if i < pfxTail.length then splitEdge n pfxTail path0 i else n
  let path := path0
  if i < path.length then
      let path := path.drop i
      if n.wildChild = true then
        match n.children with
        | [] => (n, some "runtime error: index out of range")
        | w :: ws =>
          let w := updMax (w.setPriority (u32inc w.priority)) numParams
          let numParams := u8dec numParams
          let wTail := w.pfx.drop w.children.length
          if wTail.length ≤ path.length ∧ path.take wTail.length = wTail ∧
              (path.length ≤ wTail.length ∨ path.getD wTail.length ' ' = '/') then
            let (w1, e) := recur w path numParams
            (n.setChildren (w1 :: ws), e)
          else
            let pathSeg :=
              if w.nType = .catchAll then path
              else path.takeWhile (fun ch => ch ≠ '/')
            let exPfx := fullPath.take (strIndex fullPath pathSeg) ++ wTail
            (n.setChildren (w :: ws), some ("'" ++ String.mk pathSeg ++
              "' in new path '" ++ String.mk fullPath ++
              "' conflicts with existing wildcard '" ++ String.mk wTail ++
              "' in existing prefix '" ++ String.mk exPfx ++ "'"))
      else
        let c := path.headD ' '
        if n.nType = .param ∧ c = '/' ∧ n.children.length = 1 then
          let w := n.children.headD emptyNode
          let w := w.setPriority (u32inc w.priority)
          let (w1, e) := recur w path numParams
          (n.setChildren [w1], e)
        else
          match findChildPos (n.pfx.take n.children.length) n.children c 0 with
          | .error e => (n, some e)
          | .ok (some pos) =>
            let (n2, newPos) := incrementChildPrio n pos
            let w := n2.children.getD newPos emptyNode
            let (w1, e) := recur w path numParams
            (n2.setChildren (n2.children.set newPos w1), e)
          | .ok none =>
            if c ≠ ':' ∧ c ≠ '*' then
              let n2 := (n.setPfx (n.pfx.take n.children.length ++ [c] ++
                n.pfx.drop n.children.length)).setChildren
                (n.children ++ [RNode.mk [] [] none false .static numParams 0])
              let (n3, _) := incrementChildPrio n2 (n2.children.length - 1)
              let slot := n3.children.length - 1
              let w := n3.children.getD slot emptyNode
              let (w1, e) := insertChildF numParams path fullPath handle w
              (n3.setChildren (n3.children.set slot w1), e)
            else
              insertChildF numParams path fullPath handle n
    else if i = path.length then
      if n.handle.isSome then
        (n, some ("a handle is already registered for path '" ++
          String.mk fullPath ++ "'"))
      else (n.setHandle (some handle), none)
    else (n, none)

/-- The `walk` loop of `addRoute` (tree.go), with fuel: each unit of fuel is
one `walk` iteration (`walkBody`). -/
def walkF (fullPath : Str) (handle : Nat) :
    Nat → RNode → Str → Nat → RNode × Option String
  | 0, n, _, _ => (n, some "out of fuel")
  | fuel + 1, n, path, numParams =>
    walkBody fullPath handle (walkF fullPath handle fuel) n path numParams

/-- `addRoute` (tree.go), with fuel for the `walk` loop.  The returned node
replaces the receiver; `some msg` is a Go panic, and the node then carries
every mutation made up to the panic point. -/
def addRouteF (fuel : Nat) (n : RNode) (path : Str) (handle : Nat) :
    RNode × Option String :=
  let numParams := countParams path
  let n := n.setPriority (u32inc n.priority)
  if 0 < n.pfx.length then
    walkF path handle fuel n path numParams
  else
    let (n1, e) := insertChildF numParams path path handle n
    match e with
    | none => (n1.setNType .root, none)
    | some m => (n1, some m)

/-- Reflexive-transitive subnode relation: `SubN m n` holds when `m` is `n`
itself or a node somewhere inside `n`'s subtree. -/
inductive SubN : RNode → RNode → Prop where
  | refl (n : RNode) : SubN n n
  | step {m c n : RNode} : SubN m c → c ∈ n.children → SubN m n

/-- Upper bound on the number of parameter captures `getValue` can perform
while descending from this node: every capture happens at the wildcard child
of a node with `wildChild` set, so one per `wildChild` flag along any
descending chain. -/
def capNeed : RNode → Nat
  | .mk _ cs _ w _ _ _ =>
    (cs.attach.map (fun c => capNeed c.1)).foldr max 0 + (if w then 1 else 0)
decreasing_by
  have := List.sizeOf_lt_of_mem c.2
  simp only [RNode.mk.sizeOf_spec]
  omega

/-- Local well-formedness of a node as `addRoute` maintains it: the index
chars fit inside `pfx`; a `wildChild` node has exactly one child, of `param`
or `catchAll` kind, whose edge prefix still holds a wildcard byte and whose
`maxParams` covers every capture below this node, and its own `pfx` starts
with `':'` unless its edge prefix is empty; and a `catchAll` child sitting in
an index position (under a non-`wildChild` parent) keeps its inner child. -/
def NodeOK (m : RNode) : Prop :=
  m.children.length ≤ m.pfx.length ∧
  (m.wildChild = true → ∃ w, m.children = [w] ∧
    (w.nType = .param ∨ w.nType = .catchAll) ∧
    (m.pfx.headD ' ' = ':' ∨ m.pfx.drop m.children.length = [] ∨ m.handle.isSome = true) ∧
    0 < countWild (w.pfx.drop w.children.length) ∧
    capNeed m ≤ w.maxParams) ∧
  (m.wildChild = false → ∀ c ∈ m.children, c.nType = .catchAll → c.children ≠ [])

/-- Every node of the subtree (including the node itself) is well-formed. -/
def AllOK (n : RNode) : Prop := ∀ m, SubN m n → NodeOK m

/-- Global well-formedness of a routing tree: every subnode is locally
well-formed and, when the root itself carries a wildcard child, its `pfx`
starts with `':'` (the shape `insertChild` gives a wildcard root). -/
def TreeOK (t : RNode) : Prop :=
  AllOK t ∧ (t.wildChild = true → t.pfx.headD ' ' = ':')

/-- Trees reachable from the fresh `new(node)` of `Router.Handle` by a
sequence of successful `addRoute` calls: a step keeps the updated tree only
when `addRoute` returned without panicking. -/
inductive Built : RNode → Prop where
  | base : Built emptyNode
  | step {t t' : RNode} {path : Str} {handle fuel : Nat} :
      Built t → addRouteF fuel t path handle = (t', none) → Built t'

end Httprouter

namespace Httprouter

@[simp] theorem RNode.pfx_mk (f c h w t m p) : (RNode.mk f c h w t m p).pfx = f := rfl

@[simp] theorem RNode.children_mk (f c h w t m p) :
    (RNode.mk f c h w t m p).children = c := rfl

@[simp] theorem RNode.handle_mk (f c h w t m p) : (RNode.mk f c h w t m p).handle = h := rfl

@[simp] theorem RNode.wildChild_mk (f c h w t m p) :
    (RNode.mk f c h w t m p).wildChild = w := rfl

@[simp] theorem RNode.nType_mk (f c h w t m p) : (RNode.mk f c h w t m p).nType = t := rfl

@[simp] theorem RNode.maxParams_mk (f c h w t m p) :
    (RNode.mk f c h w t m p).maxParams = m := rfl

@[simp] theorem RNode.priority_mk (f c h w t m p) :
    (RNode.mk f c h w t m p).priority = p := rfl

theorem RNode.eta (n : RNode) :
    RNode.mk n.pfx n.children n.handle n.wildChild n.nType n.maxParams n.priority = n := by
  cases n
  rfl

@[simp] theorem setPfx_fields (n : RNode) (x : Str) :
    (n.setPfx x).pfx = x ∧ (n.setPfx x).children = n.children ∧
    (n.setPfx x).handle = n.handle ∧ (n.setPfx x).wildChild = n.wildChild ∧
    (n.setPfx x).nType = n.nType ∧ (n.setPfx x).maxParams = n.maxParams ∧
    (n.setPfx x).priority = n.priority := by
  cases n
  simp [RNode.setPfx]

@[simp] theorem setChildren_fields (n : RNode) (x : List RNode) :
    (n.setChildren x).pfx = n.pfx ∧ (n.setChildren x).children = x ∧
    (n.setChildren x).handle = n.handle ∧ (n.setChildren x).wildChild = n.wildChild ∧
    (n.setChildren x).nType = n.nType ∧ (n.setChildren x).maxParams = n.maxParams ∧
    (n.setChildren x).priority = n.priority := by
  cases n
  simp [RNode.setChildren]

@[simp] theorem setHandle_fields (n : RNode) (x : Option Nat) :
    (n.setHandle x).pfx = n.pfx ∧ (n.setHandle x).children = n.children ∧
    (n.setHandle x).handle = x ∧ (n.setHandle x).wildChild = n.wildChild ∧
    (n.setHandle x).nType = n.nType ∧ (n.setHandle x).maxParams = n.maxParams ∧
    (n.setHandle x).priority = n.priority := by
  cases n
  simp [RNode.setHandle]

@[simp] theorem setWildChild_fields (n : RNode) (x : Bool) :
    (n.setWildChild x).pfx = n.pfx ∧ (n.setWildChild x).children = n.children ∧
    (n.setWildChild x).handle = n.handle ∧ (n.setWildChild x).wildChild = x ∧
    (n.setWildChild x).nType = n.nType ∧ (n.setWildChild x).maxParams = n.maxParams ∧
    (n.setWildChild x).priority = n.priority := by
  cases n
  simp [RNode.setWildChild]

@[simp] theorem setNType_fields (n : RNode) (x : NType) :
    (n.setNType x).pfx = n.pfx ∧ (n.setNType x).children = n.children ∧
    (n.setNType x).handle = n.handle ∧ (n.setNType x).wildChild = n.wildChild ∧
    (n.setNType x).nType = x ∧ (n.setNType x).maxParams = n.maxParams ∧
    (n.setNType x).priority = n.priority := by
  cases n
  simp [RNode.setNType]

@[simp] theorem setMaxParams_fields (n : RNode) (x : Nat) :
    (n.setMaxParams x).pfx = n.pfx ∧ (n.setMaxParams x).children = n.children ∧
    (n.setMaxParams x).handle = n.handle ∧ (n.setMaxParams x).wildChild = n.wildChild ∧
    (n.setMaxParams x).nType = n.nType ∧ (n.setMaxParams x).maxParams = x ∧
    (n.setMaxParams x).priority = n.priority := by
  cases n
  simp [RNode.setMaxParams]

@[simp] theorem setPriority_fields (n : RNode) (x : Nat) :
    (n.setPriority x).pfx = n.pfx ∧ (n.setPriority x).children = n.children ∧
    (n.setPriority x).handle = n.handle ∧ (n.setPriority x).wildChild = n.wildChild ∧
    (n.setPriority x).nType = n.nType ∧ (n.setPriority x).maxParams = n.maxParams ∧
    (n.setPriority x).priority = x := by
  cases n
  simp [RNode.setPriority]

theorem SubN.cases_iff {m n : RNode} :
    SubN m n ↔ m = n ∨ ∃ c ∈ n.children, SubN m c := by
  constructor
  · intro h
    cases h with
    | refl => exact Or.inl rfl
    | step h hc => exact Or.inr ⟨_, hc, h⟩
  · rintro (rfl | ⟨c, hc, h⟩)
    · exact SubN.refl _
    · exact SubN.step h hc

/-- C10 helper: `countWild` is `List.countP` of the wildcard-byte predicate. -/
theorem countWild_eq_countP (s : Str) :
    countWild s = s.countP (fun c => decide (c = ':' ∨ c = '*')) := by
  induction s with
  | nil => simp [countWild]
  | cons c rest ih =>
    by_cases h1 : c = ':'
    · simp [countWild, h1, List.countP_cons, ih]
    · by_cases h2 : c = '*'
      · simp [countWild, h1, h2, List.countP_cons, ih]
      · simp [countWild, h1, h2, List.countP_cons, ih]

theorem u8dec_le (x : Nat) : u8dec x ≤ 255 := by
  have := Nat.mod_lt (x + 255) (by norm_num : (0:Nat) < 256)
  unfold u8dec
  omega

theorem countParams_le (path : Str) : countParams path ≤ 255 := by
  unfold countParams
  simp only
  split <;> omega

/-- Every node of the tree (including itself) has `maxParams ≤ 255`,
matching the Go `uint8` field. -/
def MaxLe (n : RNode) : Prop := ∀ m, SubN m n → m.maxParams ≤ 255

theorem maxLe_def {n : RNode} :
    MaxLe n ↔ n.maxParams ≤ 255 ∧ ∀ c ∈ n.children, MaxLe c := by
  constructor
  · intro h
    exact ⟨h n (SubN.refl n), fun c hc m hm => h m (SubN.step hm hc)⟩
  · rintro ⟨h1, h2⟩ m hm
    rcases SubN.cases_iff.mp hm with rfl | ⟨c, hc, hmc⟩
    · exact h1
    · exact h2 c hc m hmc

theorem maxLe_emptyNode : MaxLe emptyNode := by
  rw [maxLe_def]
  refine ⟨by simp [emptyNode], ?_⟩
  intro c hc
  simp [emptyNode] at hc

theorem getD_mem_or (cs : List RNode) (k : Nat) :
    cs.getD k emptyNode ∈ cs ∨ cs.getD k emptyNode = emptyNode := by
  rcases Nat.lt_or_ge k cs.length with h | h
  · left
    rw [List.getD_eq_getElem _ _ h]
    exact List.getElem_mem h
  · right
    exact List.getD_eq_default _ _ h

theorem mem_set_or {cs : List RNode} {k : Nat} {x c : RNode}
    (h : c ∈ cs.set k x) : c ∈ cs ∨ c = x := by
  rcases List.mem_or_eq_of_mem_set h with h' | h'
  · exact Or.inl h'
  · exact Or.inr h'

theorem mem_swapAdj_or {cs : List RNode} {k : Nat} {c : RNode}
    (h : c ∈ swapAdj cs k) : c ∈ cs ∨ c = emptyNode := by
  unfold swapAdj at h
  rcases mem_set_or h with h' | h'
  · rcases mem_set_or h' with h'' | h''
    · exact Or.inl h''
    · rcases getD_mem_or cs (k + 1) with hm | hm
      · exact Or.inl (h'' ▸ hm)
      · exact Or.inr (h'' ▸ hm)
  · rcases getD_mem_or cs k with hm | hm
    · exact Or.inl (h' ▸ hm)
    · exact Or.inr (h' ▸ hm)

theorem mem_bubbleUp_or {prio : Nat} :
    ∀ (pos : Nat) (cs : List RNode) (c : RNode),
      c ∈ (bubbleUp prio cs pos).1 → c ∈ cs ∨ c = emptyNode := by
  intro pos
  induction pos with
  | zero => intro cs c h; exact Or.inl (by simpa [bubbleUp] using h)
  | succ k ih =>
    intro cs c h
    unfold bubbleUp at h
    split at h
    · rcases ih (swapAdj cs k) c h with h' | h'
      · exact mem_swapAdj_or h'
      · exact Or.inr h'
    · exact Or.inl (by simpa using h)

theorem maxLe_setters (n : RNode) (x1 : Str) (x2 : Option Nat) (x3 : Bool)
    (x4 : NType) (x5 : Nat) :
    (MaxLe (n.setPfx x1) ↔ MaxLe n) ∧ (MaxLe (n.setHandle x2) ↔ MaxLe n) ∧
    (MaxLe (n.setWildChild x3) ↔ MaxLe n) ∧ (MaxLe (n.setNType x4) ↔ MaxLe n) ∧
    (MaxLe (n.setPriority x5) ↔ MaxLe n) := by
  refine ⟨?_, ?_, ?_, ?_, ?_⟩ <;>
    (rw [maxLe_def, maxLe_def]; simp)

theorem maxLe_setChildren {n : RNode} {cs : List RNode} (h : n.maxParams ≤ 255)
    (hc : ∀ c ∈ cs, MaxLe c) : MaxLe (n.setChildren cs) := by
  rw [maxLe_def]
  simpa using ⟨h, hc⟩

theorem maxLe_incrementChildPrio {n : RNode} (pos : Nat) (h : MaxLe n) :
    MaxLe (incrementChildPrio n pos).1 := by
  unfold incrementChildPrio
  rw [maxLe_def] at h
  simp only
  rw [maxLe_def]
  constructor
  · simp [h.1]
  · intro c hc
    simp only [setPfx_fields, setChildren_fields] at hc
    rcases mem_bubbleUp_or _ _ _ hc with h1 | h1
    · rcases mem_set_or h1 with h2 | h2
      · exact h.2 c h2
      · subst h2
        have hmem := getD_mem_or n.children pos
        rcases hmem with hm | hm
        · have := h.2 _ hm
          rw [maxLe_def] at this ⊢
          simpa using this
        · rw [hm]
          have := maxLe_emptyNode
          rw [maxLe_def] at this ⊢
          simpa using this
    · exact h1 ▸ maxLe_emptyNode

theorem foldl_max_le :
    ∀ (cs : List RNode) (acc : Nat), acc ≤ 255 → (∀ c ∈ cs, c.maxParams ≤ 255) →
      cs.foldl (fun a c => if a < c.maxParams then c.maxParams else a) acc ≤ 255 := by
  intro cs
  induction cs with
  | nil => intro acc h _; simpa using h
  | cons c rest ih =>
    intro acc h hall
    simp only [List.foldl_cons]
    have hc : c.maxParams ≤ 255 := hall c (by simp)
    refine ih _ ?_ (fun d hd => hall d (by simp [hd]))
    split <;> omega

theorem maxLe_updMax {n : RNode} {k : Nat} (h : MaxLe n) (hk : k ≤ 255) :
    MaxLe (updMax n k) := by
  unfold updMax
  split
  · rw [maxLe_def] at h ⊢
    simpa using ⟨hk, h.2⟩
  · exact h

theorem maxLe_splitEdge {n : RNode} (pfxTail path : Str) (i : Nat) (h : MaxLe n) :
    MaxLe (splitEdge n pfxTail path i) := by
  unfold splitEdge
  rw [maxLe_def] at h
  rw [maxLe_def]
  constructor
  · simpa using h.1
  · intro c hc
    simp only [setWildChild_fields, setHandle_fields, setChildren_fields,
      List.mem_singleton] at hc
    subst hc
    rw [maxLe_def]
    constructor
    · simp only [RNode.maxParams_mk]
      exact foldl_max_le _ 0 (by omega) (fun d hd => h.2 d hd d (SubN.refl d))
    · simp only [RNode.children_mk]
      exact h.2

set_option maxHeartbeats 3200000 in
theorem maxLe_icLoop (path fullPath : Str) (handle : Nat) :
    ∀ (rest : Str) (i offset numParams : Nat) (n : RNode),
      numParams ≤ 255 → MaxLe n →
      MaxLe (icLoop path fullPath handle rest i offset numParams n).1 := by
  intro rest
  induction rest with
  | nil =>
    intro i offset numParams n hnp hn
    unfold icLoop
    split
    · rw [maxLe_def] at hn ⊢
      simpa using hn
    · exact hn
  | cons c rest' ih =>
    intro i offset numParams n hnp hn
    unfold icLoop
    split
    · rw [maxLe_def] at hn ⊢
      simpa using hn
    · simp only
      split
      · exact ih (i + 1) offset numParams n hnp hn
      · split
        · exact hn
        · split
          · exact hn
          · split
            · exact hn
            · split
              · -- param branch
                split
                · -- endI < path.length: grandchild recursion
                  rename_i kk heqw hchild hname hcolon hlen
                  rcases hg : icLoop path fullPath handle rest' (i + 1) (i + 1 + kk)
                      (u8dec numParams)
                      (RNode.mk [] [] none false .static (u8dec numParams) 1) with ⟨g1, e⟩
                  have hInner : MaxLe g1 := by
                    have hbase :
                        MaxLe (RNode.mk [] [] none false .static (u8dec numParams) 1) := by
                      rw [maxLe_def]
                      refine ⟨?_, ?_⟩
                      · simp only [RNode.maxParams_mk]
                        exact u8dec_le numParams
                      · simp
                    have := ih (i + 1) (i + 1 + kk) (u8dec numParams) _ (u8dec_le _) hbase
                    rw [hg] at this
                    exact this
                  simp only [hg]
                  rw [maxLe_def]
                  refine ⟨by simpa using (maxLe_def.mp hn).1, ?_⟩
                  intro d hd
                  simp only [setWildChild_fields, setChildren_fields, setPfx_fields,
                    List.mem_singleton] at hd
                  subst hd
                  rw [maxLe_def]
                  exact ⟨by simpa using hnp, by simpa using hInner⟩
                · -- endI = path.length: param child recursion
                  rcases hp : icLoop path fullPath handle rest' (i + 1)
                      (if 0 < i then i else offset) (u8dec numParams)
                      (RNode.mk [] [] none false .param numParams 1) with ⟨p1, e⟩
                  have hInner : MaxLe p1 := by
                    have hbase :
                        MaxLe (RNode.mk [] [] none false .param numParams 1) := by
                      rw [maxLe_def]
                      refine ⟨?_, ?_⟩
                      · simp only [RNode.maxParams_mk]
                        exact hnp
                      · simp
                    have := ih (i + 1) (if 0 < i then i else offset) (u8dec numParams)
                      _ (u8dec_le _) hbase
                    rw [hp] at this
                    exact this
                  simp only [hp]
                  rw [maxLe_def]
                  refine ⟨by simpa using (maxLe_def.mp hn).1, ?_⟩
                  intro d hd
                  simp only [setWildChild_fields, setChildren_fields, setPfx_fields,
                    List.mem_singleton] at hd
                  subst hd
                  exact hInner
              · -- catchAll branch
                split
                · exact hn
                · split
                  · exact hn
                  · split
                    · exact hn
                    · split
                      · exact hn
                      · rw [maxLe_def]
                        refine ⟨by simpa using (maxLe_def.mp hn).1, ?_⟩
                        intro d hd
                        simp only [setChildren_fields, setPfx_fields,
                          List.mem_singleton] at hd
                        subst hd
                        rw [maxLe_def]
                        refine ⟨by simp, ?_⟩
                        intro e he
                        simp only [RNode.children_mk, List.mem_singleton] at he
                        subst he
                        rw [maxLe_def]
                        exact ⟨by simp, by simp⟩

theorem maxLe_setPriorityIff (n : RNode) (x : Nat) :
    MaxLe (n.setPriority x) ↔ MaxLe n := (maxLe_setters n [] none false .static x).2.2.2.2

theorem maxLe_setPfxIff (n : RNode) (x : Str) :
    MaxLe (n.setPfx x) ↔ MaxLe n := (maxLe_setters n x none false .static 0).1

theorem maxLe_setHandleIff (n : RNode) (x : Option Nat) :
    MaxLe (n.setHandle x) ↔ MaxLe n := (maxLe_setters n [] x false .static 0).2.1

theorem maxLe_setNTypeIff (n : RNode) (x : NType) :
    MaxLe (n.setNType x) ↔ MaxLe n := (maxLe_setters n [] none false x 0).2.2.2.1

theorem maxLe_child {n c : RNode} (h : MaxLe n) (hc : c ∈ n.children) : MaxLe c :=
  (maxLe_def.mp h).2 c hc

theorem maxLe_getD {n : RNode} (h : MaxLe n) (k : Nat) :
    MaxLe (n.children.getD k emptyNode) := by
  rcases getD_mem_or n.children k with hm | hm
  · exact maxLe_child h hm
  · rw [hm]; exact maxLe_emptyNode

theorem maxLe_headD {n : RNode} (h : MaxLe n) :
    MaxLe (n.children.headD emptyNode) := by
  cases hc : n.children with
  | nil => exact maxLe_emptyNode
  | cons a l => exact maxLe_child h (by rw [hc]; exact List.mem_cons_self a l)

set_option maxHeartbeats 3200000 in
theorem maxLe_walkBody (fullPath : Str) (handle : Nat)
    (recur : RNode → Str → Nat → RNode × Option String)
    (hrec : ∀ w q k, k ≤ 255 → MaxLe w → MaxLe (recur w q k).1) :
    ∀ (n : RNode) (path : Str) (numParams : Nat),
      numParams ≤ 255 → MaxLe n →
      MaxLe (walkBody fullPath handle recur n path numParams).1 := by
  intro n path numParams hnp hn
  unfold walkBody
  simp only
  set N0 := updMax n numParams with hN0
  set T := N0.pfx.drop N0.children.length with hT
  set i := lcpLen path T with hi
  set N := (if i < T.length then splitEdge N0 T path i else N0) with hN
  have hN2 : MaxLe N := by
    rw [hN]
    split
    · exact maxLe_splitEdge _ _ _ (maxLe_updMax hn hnp)
    · exact maxLe_updMax hn hnp
  clear_value N
  clear hN hN0 hT
  split
  · -- i < path.length
    split
    · -- wildChild
      split
      · exact hN2
      · rename_i w ws hchild
        split
        · -- wildcard matches: recurse into w
          apply maxLe_setChildren (maxLe_def.mp hN2).1
          intro d hd
          rcases List.mem_cons.mp hd with rfl | hmem
          · refine hrec _ _ _ (u8dec_le _) (maxLe_updMax ?_ hnp)
            rw [maxLe_setPriorityIff]
            exact maxLe_child hN2 (hchild ▸ List.mem_cons_self _ _)
          · exact maxLe_child hN2 (hchild ▸ List.mem_cons_of_mem _ hmem)
        · -- wildcard conflict
          apply maxLe_setChildren (maxLe_def.mp hN2).1
          intro d hd
          rcases List.mem_cons.mp hd with rfl | hmem
          · refine maxLe_updMax ?_ hnp
            rw [maxLe_setPriorityIff]
            exact maxLe_child hN2 (hchild ▸ List.mem_cons_self _ _)
          · exact maxLe_child hN2 (hchild ▸ List.mem_cons_of_mem _ hmem)
    · -- not wildChild
      split
      · -- slash after param
        apply maxLe_setChildren (maxLe_def.mp hN2).1
        intro d hd
        rcases List.mem_singleton.mp hd with rfl
        refine hrec _ _ _ hnp ?_
        rw [maxLe_setPriorityIff]
        exact maxLe_headD hN2
      · split
        · exact hN2
        · -- found child at pos
          apply maxLe_setChildren (maxLe_def.mp (maxLe_incrementChildPrio _ hN2)).1
          intro d hd
          rcases mem_set_or hd with hmem | rfl
          · exact maxLe_child (maxLe_incrementChildPrio _ hN2) hmem
          · exact hrec _ _ _ hnp (maxLe_getD (maxLe_incrementChildPrio _ hN2) _)
        · split
          · -- insert fresh static child
            have hn3 : MaxLe (incrementChildPrio
                ((N.setPfx (List.take N.children.length N.pfx ++
                  [(List.drop i path).headD ' '] ++ List.drop N.children.length N.pfx)).setChildren
                  (N.children ++ [RNode.mk [] [] none false .static numParams 0]))
                (((N.setPfx (List.take N.children.length N.pfx ++
                  [(List.drop i path).headD ' '] ++ List.drop N.children.length N.pfx)).setChildren
                  (N.children ++ [RNode.mk [] [] none false .static numParams 0])).children.length - 1)).1 := by
              apply maxLe_incrementChildPrio
              apply maxLe_setChildren
              · simpa using (maxLe_def.mp hN2).1
              · intro d hd
                rcases List.mem_append.mp hd with hmem | hmem
                · exact maxLe_child hN2 hmem
                · rcases List.mem_singleton.mp hmem with rfl
                  rw [maxLe_def]
                  exact ⟨by simpa using hnp, by simp⟩
            apply maxLe_setChildren (maxLe_def.mp hn3).1
            intro d hd
            rcases mem_set_or hd with hmem | rfl
            · exact maxLe_child hn3 hmem
            · exact maxLe_icLoop _ _ _ _ _ _ _ _ hnp (maxLe_getD hn3 _)
          · -- wildcard byte: insertChild on N
            exact maxLe_icLoop _ _ _ _ _ _ _ _ hnp hN2
  · -- i >= path.length
    split
    · -- i = path.length: leaf
      split
      · exact hN2
      · rw [maxLe_setHandleIff]
        exact hN2
    · exact hN2

theorem maxLe_walkF (fullPath : Str) (handle : Nat) :
    ∀ (fuel : Nat) (w : RNode) (q : Str) (k : Nat), k ≤ 255 → MaxLe w →
      MaxLe (walkF fullPath handle fuel w q k).1 := by
  intro fuel
  induction fuel with
  | zero => intro w q k hk hw; exact hw
  | succ f ih =>
    intro w q k hk hw
    unfold walkF
    exact maxLe_walkBody fullPath handle _ (fun w q k hk hw => ih w q k hk hw) w q k hk hw

theorem maxLe_addRouteF (fuel : Nat) (n : RNode) (path : Str) (h : Nat)
    (hn : MaxLe n) : MaxLe (addRouteF fuel n path h).1 := by
  unfold addRouteF
  simp only
  split
  · exact maxLe_walkF _ _ _ _ _ _ (countParams_le path)
      ((maxLe_setPriorityIff n _).mpr hn)
  · rcases hic : insertChildF (countParams path) path path h
        (n.setPriority (u32inc n.priority)) with ⟨n1, e⟩
    have h1 : MaxLe n1 := by
      have hx := maxLe_icLoop path path h path 0 0 (countParams path)
        (n.setPriority (u32inc n.priority)) (countParams_le path)
        ((maxLe_setPriorityIff n (u32inc n.priority)).mpr hn)
      unfold insertChildF at hic
      rw [hic] at hx
      exact hx
    simp only [hic]
    cases e with
    | none => simpa using (maxLe_setNTypeIff n1 .root).mpr h1
    | some m => simpa using h1

/-- C9: `Params.ByName` returns the value of the first `Param` whose key
equals the given name, and the empty string when no key matches; with
duplicate keys the earlier captured value wins. -/
theorem byName_first_match (ps : List ParamKV) (name : Str) :
    byName ps name = ((ps.find? (fun p => decide (p.1 = name))).map Prod.snd).getD [] := by
  induction ps with
  | nil => simp [byName]
  | cons p rest ih =>
    by_cases h : p.1 = name
    · simp [byName, h]
    · simp [byName, h, ih]

/-- C10: `countParams` returns the number of `':'` and `'*'` bytes in the
pattern saturated at 255, and consequently `addRoute` keeps every node's
`maxParams` (the capacity of the lazily allocated parameter slice) at most
255 on every tree all of whose nodes already satisfy that bound. -/
theorem countParams_saturated :
    (∀ path : Str, countParams path =
      min (path.countP (fun c => decide (c = ':' ∨ c = '*'))) 255) ∧
    (∀ (fuel : Nat) (n : RNode) (path : Str) (h : Nat), MaxLe n →
      ∀ m, SubN m (addRouteF fuel n path h).1 → m.maxParams ≤ 255) := by
  constructor
  · intro path
    rw [← countWild_eq_countP]
    unfold countParams
    simp only
    rw [Nat.min_def]
    split <;> split <;> omega
  · intro fuel n path h hn m hm
    exact maxLe_addRouteF fuel n path h hn m hm

/-- Witness for C10 at a concrete pattern and a concrete insertion. -/
theorem countParams_saturated_witness :
    countParams "/:a/:b".toList = min 2 255 ∧
    (addRouteF 5 emptyNode "/:a/:b".toList 7).1.maxParams ≤ 255 := by
  constructor
  · rw [countParams_saturated.1]
    decide
  · exact countParams_saturated.2 5 emptyNode "/:a/:b".toList 7 maxLe_emptyNode _
      (SubN.refl _)

theorem priority_updMax (n : RNode) (k : Nat) : (updMax n k).priority = n.priority := by
  unfold updMax
  split <;> simp

theorem priority_splitEdge (n : RNode) (pfxTail path : Str) (i : Nat) :
    (splitEdge n pfxTail path i).priority = n.priority := by
  unfold splitEdge
  simp

theorem priority_incrementChildPrio (n : RNode) (pos : Nat) :
    ((incrementChildPrio n pos).1).priority = n.priority := by
  unfold incrementChildPrio
  simp

set_option maxHeartbeats 3200000 in
theorem priority_icLoop (path fullPath : Str) (handle : Nat) :
    ∀ (rest : Str) (i offset numParams : Nat) (n : RNode),
      ((icLoop path fullPath handle rest i offset numParams n).1).priority = n.priority := by
  intro rest
  induction rest with
  | nil =>
    intro i offset numParams n
    unfold icLoop
    split
    · simp only [setHandle_fields, setPfx_fields]
    · rfl
  | cons c rest' ih =>
    intro i offset numParams n
    unfold icLoop
    split
    · simp only [setHandle_fields, setPfx_fields]
    · simp only
      split
      · exact ih (i + 1) offset numParams n
      · split
        · rfl
        · split
          · rfl
          · split
            · rfl
            · split
              · split
                · rcases hg : icLoop path fullPath handle rest' (i + 1) _
                      (u8dec numParams)
                      (RNode.mk [] [] none false .static (u8dec numParams) 1) with ⟨g1, e⟩
                  simp only [hg, setWildChild_fields, setChildren_fields, setPfx_fields]
                · rcases hp : icLoop path fullPath handle rest' (i + 1) _
                      (u8dec numParams)
                      (RNode.mk [] [] none false .param numParams 1) with ⟨p1, e⟩
                  simp only [hp, setWildChild_fields, setChildren_fields, setPfx_fields]
              · split
                · rfl
                · split
                  · rfl
                  · split
                    · rfl
                    · split
                      · rfl
                      · simp only [setChildren_fields, setPfx_fields]

theorem priority_insertChildF (numParams : Nat) (path fullPath : Str) (handle : Nat)
    (n : RNode) : ((insertChildF numParams path fullPath handle n).1).priority = n.priority := by
  unfold insertChildF
  exact priority_icLoop path fullPath handle path 0 0 numParams n

set_option maxHeartbeats 3200000 in
theorem priority_walkBody (fullPath : Str) (handle : Nat)
    (recur : RNode → Str → Nat → RNode × Option String)
    (n : RNode) (path : Str) (numParams : Nat) :
    ((walkBody fullPath handle recur n path numParams).1).priority = n.priority := by
  unfold walkBody
  simp only
  set N0 := updMax n numParams with hN0
  set T := N0.pfx.drop N0.children.length with hT
  set i := lcpLen path T with hi
  set N := (if i < T.length then splitEdge N0 T path i else N0) with hN
  have hNp : N.priority = n.priority := by
    rw [hN]
    split
    · rw [priority_splitEdge, hN0, priority_updMax]
    · rw [hN0, priority_updMax]
  clear_value N
  clear hN hN0 hT
  split
  · split
    · split
      · exact hNp
      · split
        · simp only [setChildren_fields]
          exact hNp
        · simp only [setChildren_fields]
          exact hNp
    · split
      · simp only [setChildren_fields]
        exact hNp
      · split
        · exact hNp
        · simp only [setChildren_fields]
          rw [priority_incrementChildPrio]
          exact hNp
        · split
          · simp only [setChildren_fields]
            rw [priority_incrementChildPrio]
            simp only [setChildren_fields, setPfx_fields]
            exact hNp
          · rw [priority_insertChildF]
            exact hNp
  · split
    · split
      · exact hNp
      · simp only [setHandle_fields]
        exact hNp
    · exact hNp

theorem priority_walkF (fullPath : Str) (handle : Nat) :
    ∀ (fuel : Nat) (w : RNode) (q : Str) (k : Nat),
      ((walkF fullPath handle fuel w q k).1).priority = w.priority := by
  intro fuel
  induction fuel with
  | zero => intro w q k; rfl
  | succ f _ =>
    intro w q k
    unfold walkF
    exact priority_walkBody fullPath handle _ w q k

/-- C4 (amended): every `addRoute` call — successful or failing — increments
the receiver node's priority (mod `2^32`); a failing call is deterministic but
the tree is not rolled back, so at least this increment persists after the
failure. -/
theorem addRoute_increments_priority (fuel : Nat) (n : RNode) (path : Str)
    (h : Nat) : ((addRouteF fuel n path h).1).priority = u32inc n.priority := by
  unfold addRouteF
  simp only
  split
  · rw [priority_walkF]
    simp
  · rcases hic : insertChildF (countParams path) path path h
        (n.setPriority (u32inc n.priority)) with ⟨n1, e⟩
    have hpr := priority_insertChildF (countParams path) path path h
        (n.setPriority (u32inc n.priority))
    rw [hic] at hpr
    simp only [setPriority_fields] at hpr
    simp only [hic]
    cases e with
    | none =>
      simp only [setNType_fields]
      exact hpr
    | some m => exact hpr

/-- C4 counterexample: registering `/x` twice makes the second `addRoute`
fail, yet the tree observable after the failed call differs from the tree
before it — the root's priority moved from 1 to 2. -/
theorem addRoute_failure_mutates_tree :
    ((addRouteF 8 (addRouteF 8 emptyNode "/x".toList 1).1 "/x".toList 2).2).isSome = true ∧
    ((addRouteF 8 (addRouteF 8 emptyNode "/x".toList 1).1 "/x".toList 2).1).priority = 2 ∧
    ((addRouteF 8 emptyNode "/x".toList 1).1).priority = 1 := by
  refine ⟨?_, ?_, ?_⟩ <;> decide

/-- The dispatch decision of `Router.ServeHTTP` (router.go). -/
inductive HAction where
  | handled (h : Nat) (ps : Option PBuf)
  | redirect (loc : Str) (code : Nat)
  | notFound
  | panicked (msg : String)
deriving DecidableEq, Repr

/-- `Router.ServeHTTP` (router.go): look up the method's tree, run `getValue`,
then either invoke the handler, emit the trailing-slash redirect with
`http.StatusMovedPermanently`, try the case-insensitive lookup
(`findCaseInsensitivePath`, passed in as `fcip`), or fall through to the
not-found handler. -/
def serveHTTP (trees : String → Option RNode)
    (fcip : RNode → Str → Bool → Str × Bool)
    (redirectTrailingSlash redirectCaseInsensitive : Bool)
    (fuel : Nat) (method : String) (path : Str) : HAction :=
  match trees method with
  | none => .notFound
  | some root =>
    match getValueF fuel root path none with
    | .res (some h) ps _ => .handled h ps
    | .res none _ tsr =>
      if tsr = true ∧ redirectTrailingSlash = true ∧ path ≠ ['/'] then
        match path.getLast? with
        | none => .panicked "runtime error: index out of range"
        | some c =>
          if c = '/' then .redirect path.dropLast 301
          else .redirect (path ++ ['/']) 301
      else if redirectCaseInsensitive = true then
        let r := fcip root path redirectTrailingSlash
        if r.2 = true then .redirect r.1 301 else .notFound
      else .notFound
    | .err m => .panicked m
    | .out => .panicked "out of fuel"

/-- C3 counterexample: a PATCH request to `/path/` with only `/path`
registered takes the trailing-slash-redirect branch and is answered with
status 301, although the request method is not GET (the claim says 307). -/
theorem serveHTTP_patch_tsr_redirect_is_301 :
    serveHTTP
      (fun m => if m = "PATCH" then some (addRouteF 8 emptyNode "/path".toList 1).1 else none)
      (fun _ _ _ => ([], false)) true true 8 "PATCH" "/path/".toList =
      .redirect "/path".toList 301 ∧ (301 : Nat) ≠ 307 := by
  exact ⟨by decide, by decide⟩

/-- C3 (amended): whenever dispatch takes the trailing-slash-redirect branch
(no handler, `tsr = true`, `RedirectTrailingSlash` enabled, `path != "/"`),
the emitted redirect targets the path with the trailing slash toggled and
always uses HTTP status 301 (`http.StatusMovedPermanently`), for every
request method. -/
theorem serveHTTP_tsr_redirect_always_301 (trees : String → Option RNode)
    (fcip : RNode → Str → Bool → Str × Bool) (rci : Bool) (fuel : Nat)
    (method : String) (path : Str) (root : RNode) (ps : Option PBuf)
    (hroot : trees method = some root)
    (hgv : getValueF fuel root path none = .res none ps true)
    (hne : path ≠ ['/']) (hnn : path ≠ []) :
    serveHTTP trees fcip true rci fuel method path =
      .redirect (if path.getLast? = some '/' then path.dropLast else path ++ ['/']) 301 := by
  unfold serveHTTP
  rw [hroot]
  simp only [hgv]
  rw [if_pos ⟨trivial, trivial, hne⟩]
  cases hlast : path.getLast? with
  | none => exact absurd (List.getLast?_eq_none_iff.mp hlast) hnn
  | some c =>
    by_cases hc : c = '/'
    · subst hc
      simp
    · simp [hc]

/-- Witness for the amended C3 theorem at a concrete GET tree. -/
theorem serveHTTP_tsr_redirect_always_301_witness :
    (fun m => if m = "GET" then some (addRouteF 8 emptyNode "/w".toList 3).1 else none) "GET" =
      some (addRouteF 8 emptyNode "/w".toList 3).1 ∧
    getValueF 8 (addRouteF 8 emptyNode "/w".toList 3).1 "/w/".toList none =
      .res none none true ∧
    serveHTTP
      (fun m => if m = "GET" then some (addRouteF 8 emptyNode "/w".toList 3).1 else none)
      (fun _ _ _ => ([], false)) true false 8 "GET" "/w/".toList =
      .redirect (if "/w/".toList.getLast? = some '/' then "/w/".toList.dropLast
        else "/w/".toList ++ ['/']) 301 := by
  refine ⟨by rfl, by decide, ?_⟩
  exact serveHTTP_tsr_redirect_always_301
    (fun m => if m = "GET" then some (addRouteF 8 emptyNode "/w".toList 3).1 else none)
    (fun _ _ _ => ([], false)) false 8 "GET" "/w/".toList
    (addRouteF 8 emptyNode "/w".toList 3).1 none (by rfl) (by decide) (by decide)
    (by decide)

theorem drop_succ_of_cons {path rest' : Str} {c : Char} {i : Nat}
    (h : path.drop i = c :: rest') : path.drop (i + 1) = rest' := by
  rw [← List.drop_drop 1 i, h]
  rfl

set_option maxHeartbeats 3200000 in
theorem icLoop_catchAll_shapes (path fullPath : Str) (handle : Nat) :
    ∀ (rest : Str) (i offset numParams : Nat) (n : RNode),
      rest = path.drop i →
      n.children = [] → n.nType ≠ .catchAll →
      (icLoop path fullPath handle rest i offset numParams n).2 = none →
      ∀ m, SubN m (icLoop path fullPath handle rest i offset numParams n).1 →
        m.nType = .catchAll →
        (m.pfx = ['/'] ∧ m.wildChild = true ∧
          ∃ leaf, m.children = [leaf] ∧ leaf.nType = .catchAll) ∨
        (m.children = [] ∧ m.pfx.take 2 = ['/', '*'] ∧ m.handle.isSome = true) := by
  intro rest
  induction rest with
  | nil =>
    intro i offset numParams n hrest hch hnt
    suffices h : ∀ r, icLoop path fullPath handle [] i offset numParams n = r →
        r.2 = none → ∀ m, SubN m r.1 → m.nType = .catchAll →
        (m.pfx = ['/'] ∧ m.wildChild = true ∧
          ∃ leaf, m.children = [leaf] ∧ leaf.nType = .catchAll) ∨
        (m.children = [] ∧ m.pfx.take 2 = ['/', '*'] ∧ m.handle.isSome = true) by
      exact fun hok m hm hmt => h _ rfl hok m hm hmt
    intro r hr
    unfold icLoop at hr
    split at hr
    · subst hr
      intro _ m hm hmt
      rcases SubN.cases_iff.mp hm with rfl | ⟨d, hd, _⟩
      · exact absurd (by simpa using hmt) hnt
      · simp [hch] at hd
    · subst hr
      intro hok
      simp at hok
  | cons c rest' ih =>
    intro i offset numParams n hrest hch hnt
    have hrest' : path.drop (i + 1) = rest' := drop_succ_of_cons hrest.symm
    suffices h : ∀ r, icLoop path fullPath handle (c :: rest') i offset numParams n = r →
        r.2 = none → ∀ m, SubN m r.1 → m.nType = .catchAll →
        (m.pfx = ['/'] ∧ m.wildChild = true ∧
          ∃ leaf, m.children = [leaf] ∧ leaf.nType = .catchAll) ∨
        (m.children = [] ∧ m.pfx.take 2 = ['/', '*'] ∧ m.handle.isSome = true) by
      exact fun hok m hm hmt => h _ rfl hok m hm hmt
    intro r hr
    unfold icLoop at hr
    split at hr
    · subst hr
      intro _ m hm hmt
      rcases SubN.cases_iff.mp hm with rfl | ⟨d, hd, _⟩
      · exact absurd (by simpa using hmt) hnt
      · simp [hch] at hd
    · split at hr
      · exact hr ▸ ih (i + 1) offset numParams n hrest'.symm hch hnt
      · split at hr
        · subst hr
          intro hok
          simp at hok
        · split at hr
          · subst hr
            intro hok
            simp at hok
          · split at hr
            · subst hr
              intro hok
              simp at hok
            · split at hr
              · -- param branch
                split at hr
                · -- endI < path.length
                  rename_i kk heqw hchild hname hcolon hlen
                  rcases hg : icLoop path fullPath handle rest' (i + 1) (i + 1 + kk)
                      (u8dec numParams)
                      (RNode.mk [] [] none false .static (u8dec numParams) 1) with ⟨g1, e⟩
                  simp only [hg] at hr
                  subst hr
                  intro hok m hm hmt
                  simp only at hok hm
                  have hg1 := ih (i + 1) (i + 1 + kk) (u8dec numParams)
                    (RNode.mk [] [] none false .static (u8dec numParams) 1)
                    hrest'.symm (by simp) (by simp)
                  rw [hg] at hg1
                  rcases SubN.cases_iff.mp hm with rfl | ⟨d, hd, hmd⟩
                  · exact absurd (by simpa using hmt) hnt
                  · simp only [setWildChild_fields, setChildren_fields, setPfx_fields,
                      List.mem_singleton] at hd
                    subst hd
                    rcases SubN.cases_iff.mp hmd with rfl | ⟨d2, hd2, hmd2⟩
                    · simp at hmt
                    · simp only [RNode.children_mk, List.mem_singleton] at hd2
                      subst hd2
                      exact hg1 (by simpa using hok) m hmd2 hmt
                · -- endI = path.length
                  rcases hp : icLoop path fullPath handle rest' (i + 1)
                      (if 0 < i then i else offset) (u8dec numParams)
                      (RNode.mk [] [] none false .param numParams 1) with ⟨p1, e⟩
                  simp only [hp] at hr
                  subst hr
                  intro hok m hm hmt
                  simp only at hok hm
                  have hp1 := ih (i + 1) (if 0 < i then i else offset) (u8dec numParams)
                    (RNode.mk [] [] none false .param numParams 1)
                    hrest'.symm (by simp) (by simp)
                  rw [hp] at hp1
                  rcases SubN.cases_iff.mp hm with rfl | ⟨d, hd, hmd⟩
                  · exact absurd (by simpa using hmt) hnt
                  · simp only [setWildChild_fields, setChildren_fields, setPfx_fields,
                      List.mem_singleton] at hd
                    subst hd
                    exact hp1 (by simpa using hok) m hmd hmt
              · -- catchAll branch
                split at hr
                · subst hr
                  intro hok
                  simp at hok
                · split at hr
                  · subst hr
                    intro hok
                    simp at hok
                  · split at hr
                    · subst hr
                      intro hok
                      simp at hok
                    · split at hr
                      · subst hr
                        intro hok
                        simp at hok
                      · -- success: the two-node chain is built
                        rename_i hnp0 hskip xw kk heqw hchild hname hcolon hend hroot hizero hslash
                        subst hr
                        intro _ m hm hmt
                        have hi0 : i ≠ 0 := hizero
                        have hlt : i - 1 < path.length := by
                          have h2 : i < path.length := by
                            by_contra hcon
                            push_neg at hcon
                            rw [List.drop_eq_nil_of_le hcon] at hrest
                            simp at hrest
                          omega
                        have hdrop : path.drop (i - 1) = '/' :: c :: rest' := by
                          rw [List.drop_eq_getElem_cons hlt]
                          have h1 : path.getD (i - 1) ' ' = '/' := by
                            by_contra hcon
                            exact hslash hcon
                          rw [List.getD_eq_getElem _ _ hlt] at h1
                          rw [h1]
                          have h3 : i - 1 + 1 = i := by omega
                          rw [h3, ← hrest]
                        rcases SubN.cases_iff.mp hm with rfl | ⟨d, hd, hmd⟩
                        · exact absurd (by simpa using hmt) hnt
                        · simp only [setChildren_fields, setPfx_fields,
                            List.mem_singleton] at hd
                          subst hd
                          rcases SubN.cases_iff.mp hmd with rfl | ⟨d2, hd2, hmd2⟩
                          · left
                            exact ⟨by simp, by simp,
                              RNode.mk (List.drop (i - 1) path) [] (some handle)
                                false .catchAll 1 1, by simp, by simp⟩
                          · simp only [RNode.children_mk, List.mem_singleton] at hd2
                            subst hd2
                            rcases SubN.cases_iff.mp hmd2 with rfl | ⟨d3, hd3, _⟩
                            · right
                              refine ⟨by simp, ?_, by simp⟩
                              simp only [RNode.pfx_mk]
                              rw [hdrop]
                              have hc : c = '*' := by
                                rcases not_and_or.mp hskip with h | h
                                · exact absurd (not_not.mp h) hcolon
                                · exact not_not.mp h
                              rw [hc]
                              rfl
                            · simp at hd3

/-- C7 counterexample: after the successful insertion of `/src/*fp` into an
empty tree, the root's single child is a catchAll node that has a child and
whose edge prefix is empty (so it does not start with `'/'`), refuting the
claimed invariant. -/
theorem catchAll_node_with_child_exists :
    (addRouteF 8 emptyNode "/src/*fp".toList 1).2 = none ∧
    ((addRouteF 8 emptyNode "/src/*fp".toList 1).1.children.getD 0 emptyNode).nType =
      .catchAll ∧
    ((addRouteF 8 emptyNode "/src/*fp".toList 1).1.children.getD 0
      emptyNode).children.length = 1 ∧
    (((addRouteF 8 emptyNode "/src/*fp".toList 1).1.children.getD 0 emptyNode).pfx.drop
      ((addRouteF 8 emptyNode "/src/*fp".toList 1).1.children.getD 0
        emptyNode).children.length) = [] := by
  refine ⟨?_, ?_, ?_, ?_⟩ <;> decide

/-- C7 (amended): a successful `insertChild` materializes a catch-all as a
two-node chain of catchAll nodes — an inner node with `pfx = "/"` (one index
char, empty edge prefix), `wildChild` set and exactly one child, itself a
catchAll; and a leaf with no children whose `pfx` begins `'/'`, `'*'`,
followed by the wildcard name, carrying the handler. -/
theorem insertChild_catchAll_pair (numParams : Nat) (path fullPath : Str)
    (handle : Nat) (n : RNode)
    (hch : n.children = []) (hnt : n.nType ≠ .catchAll)
    (hok : (insertChildF numParams path fullPath handle n).2 = none) :
    ∀ m, SubN m (insertChildF numParams path fullPath handle n).1 →
      m.nType = .catchAll →
      (m.pfx = ['/'] ∧ m.wildChild = true ∧
        ∃ leaf, m.children = [leaf] ∧ leaf.nType = .catchAll) ∨
      (m.children = [] ∧ m.pfx.take 2 = ['/', '*'] ∧ m.handle.isSome = true) := by
  intro m hm hmt
  unfold insertChildF at hok hm
  exact icLoop_catchAll_shapes path fullPath handle path 0 0 numParams n
    (by simp) hch hnt hok m hm hmt

/-- Witness for the amended C7 theorem at a concrete catch-all insertion. -/
theorem insertChild_catchAll_pair_witness :
    (insertChildF 1 "/s/*x".toList "/s/*x".toList 5 emptyNode).2 = none ∧
    ((((insertChildF 1 "/s/*x".toList "/s/*x".toList 5 emptyNode).1.children.getD 0
        emptyNode).pfx = ['/'] ∧
      ((insertChildF 1 "/s/*x".toList "/s/*x".toList 5 emptyNode).1.children.getD 0
        emptyNode).wildChild = true ∧
      ∃ leaf, ((insertChildF 1 "/s/*x".toList "/s/*x".toList 5 emptyNode).1.children.getD 0
        emptyNode).children = [leaf] ∧ leaf.nType = .catchAll) ∨
     (((insertChildF 1 "/s/*x".toList "/s/*x".toList 5 emptyNode).1.children.getD 0
        emptyNode).children = [] ∧
      (((insertChildF 1 "/s/*x".toList "/s/*x".toList 5 emptyNode).1.children.getD 0
        emptyNode).pfx.take 2) = ['/', '*'] ∧
      ((insertChildF 1 "/s/*x".toList "/s/*x".toList 5 emptyNode).1.children.getD 0
        emptyNode).handle.isSome = true)) := by
  constructor
  · decide
  · refine insertChild_catchAll_pair 1 "/s/*x".toList "/s/*x".toList 5 emptyNode rfl
      (by decide) (by decide) _ ?_ (by decide)
    have hc : (insertChildF 1 "/s/*x".toList "/s/*x".toList 5 emptyNode).1.children =
        [(insertChildF 1 "/s/*x".toList "/s/*x".toList 5 emptyNode).1.children.getD 0
          emptyNode] := by rfl
    exact SubN.step (SubN.refl _) (by rw [hc]; exact List.mem_singleton_self _)

theorem countParams_zero {p : Str} (h : countWild p = 0) : countParams p = 0 := by
  unfold countParams
  simp [h]

theorem addRoute_empty_static (p : Str) (h0 : Nat) (fuel : Nat)
    (hw : countWild p = 0) :
    addRouteF fuel emptyNode p h0 = (RNode.mk p [] (some h0) false .root 0 1, none) := by
  unfold addRouteF
  rw [countParams_zero hw]
  simp only [emptyNode, RNode.setPriority, u32inc]
  norm_num
  unfold insertChildF
  cases p with
  | nil =>
    unfold icLoop
    simp [RNode.setPfx, RNode.setHandle, RNode.setNType]
  | cons c rest =>
    unfold icLoop
    simp [RNode.setPfx, RNode.setHandle, RNode.setNType]

theorem eq_append_slash_iff (p q : Str) :
    p = q ++ ['/'] ↔
      p.length = q.length + 1 ∧ q = p.take q.length ∧ p.getD q.length ' ' = '/' := by
  constructor
  · rintro rfl
    refine ⟨by simp, ?_, ?_⟩
    · rw [List.take_left]
    · rw [List.getD_eq_getElem]
      · simp
      · simp
  · rintro ⟨h1, h2, h3⟩
    have hlt : q.length < p.length := by omega
    conv_lhs => rw [← List.take_append_drop q.length p]
    rw [← h2]
    congr 1
    have hd : (p.drop q.length).length = 1 := by
      simp
      omega
    obtain ⟨x, hx⟩ := List.length_eq_one.mp hd
    rw [List.getD_eq_getElem _ _ hlt] at h3
    have : p[q.length] = x := by
      have h0 : 0 < (p.drop q.length).length := by rw [hd]; omega
      have h4 : (p.drop q.length)[0] = x := by simp [hx]
      rw [List.getElem_drop] at h4
      simpa using h4
    rw [hx, ← this, h3]

/-- C1 (amended): for a tree holding a single static (wildcard-free) pattern
`p` and a queried path `q ≠ "/"` on which `getValue` finds no handler, the
returned `tsr` is true iff `p` differs from `q` only in a trailing `'/'`. -/
theorem tsr_toggle_singleton_static (p q : Str) (h0 fuel fuel2 : Nat)
    (hw : countWild p = 0) (hq : q ≠ ['/'])
    (ps : Option PBuf) (tsr : Bool)
    (hgv : getValueF (fuel + 1) (addRouteF fuel2 emptyNode p h0).1 q none =
      .res none ps tsr) :
    tsr = true ↔ (p = q ++ ['/'] ∨ q = p ++ ['/']) := by
  rw [addRoute_empty_static p h0 fuel2 hw] at hgv
  unfold getValueF at hgv
  simp only [RNode.pfx_mk, RNode.children_mk, RNode.handle_mk, RNode.wildChild_mk,
    List.length_nil, List.drop_zero, List.take_nil, List.take_zero] at hgv
  split at hgv
  · rename_i hA
    simp only [scanChild, if_true, Option.isSome_some, Bool.and_true] at hgv
    rw [GVRes.res.injEq] at hgv
    obtain ⟨-, -, htsr⟩ := hgv
    subst htsr
    simp only [decide_eq_true_iff]
    constructor
    · intro hdrop
      right
      conv_lhs => rw [← List.take_append_drop p.length q]
      rw [hA.2, hdrop]
    · rintro (h | h)
      · exfalso
        have : p.length = q.length + 1 := by rw [h]; simp
        omega
      · rw [h]
        exact List.drop_left p ['/']
  · split at hgv
    · simp at hgv
    · rename_i hA hQ
      rw [GVRes.res.injEq] at hgv
      obtain ⟨-, -, htsr⟩ := hgv
      subst htsr
      simp only [Bool.or_eq_true, Bool.and_eq_true, decide_eq_true_iff,
        Option.isSome_some, and_true]
      constructor
      · rintro (h | ⟨⟨h1, h2⟩, h3⟩)
        · exact absurd h hq
        · left
          refine (eq_append_slash_iff p q).mpr ⟨h1, ?_, h2⟩
          have hql : q.length = p.length - 1 := by omega
          rw [hql]
          exact h3
      · rintro (h | h)
        · right
          obtain ⟨h1, h2, h3⟩ := (eq_append_slash_iff p q).mp h
          refine ⟨⟨h1, h3⟩, ?_⟩
          have hql : p.length - 1 = q.length := by omega
          rw [hql]
          exact h2
        · exfalso
          apply hA
          constructor
          · rw [h]
            simp
          · rw [h]
            exact List.take_left p ['/']


/-- C1 counterexample: with the conflict-free pattern set `P = {"/ab"}` the
query `"/"` returns `tsr = true`, yet no pattern in `P` differs from `"/"`
only in a trailing slash — so the claimed "iff" is false as stated. -/
theorem getValue_tsr_without_slash_sibling :
    (addRouteF 8 emptyNode "/ab".toList 1).2 = none ∧
    getValueF 8 (addRouteF 8 emptyNode "/ab".toList 1).1 "/".toList none =
      .res none none true ∧
    (¬ ∃ p ∈ ["/ab".toList], p = "/".toList ++ ['/'] ∨ "/".toList = p ++ ['/']) := by
  refine ⟨by decide, by decide, by decide⟩

/-- Witness for the amended C1 theorem: pattern `/ab`, query `/ab/`. -/
theorem tsr_toggle_singleton_static_witness :
    countWild "/ab".toList = 0 ∧ "/ab/".toList ≠ (['/'] : Str) ∧
    getValueF 9 (addRouteF 8 emptyNode "/ab".toList 1).1 "/ab/".toList none =
      .res none none true ∧
    (true = true ↔ ("/ab".toList = "/ab/".toList ++ ['/'] ∨
      "/ab/".toList = "/ab".toList ++ ['/'])) := by
  refine ⟨by decide, by decide, by decide, ?_⟩
  exact tsr_toggle_singleton_static "/ab".toList "/ab/".toList 1 8 8 (by decide)
    (by decide) none true (by decide)

/-- Modelled from the spec: `CleanPath` (path.go) is not among the sources —
only its tests are.  §4.1: split the path on `'/'` (collapsing runs of `/`,
i.e. ignoring empty segments), drop `.` segments, let `..` pop the previous
segment (a no-op above root), prepend `/`, and keep a trailing `/` when the
input ends in `/` (equivalently, its last segment is empty) or in a `.`
segment that resolves to a directory. -/
def splitSlash : Str → List Str
  | [] => [[]]
  | c :: rest =>
    if c = '/' then [] :: splitSlash rest
    else
      match splitSlash rest with
      | s :: ss => (c :: s) :: ss
      | [] => [[c]]

/-- Modelled from the spec: one segment step of the path cleaner. -/
def stackStep (st : List Str) (seg : Str) : List Str :=
  if seg = [] then st
  else if seg = ['.'] then st
  else if seg = ['.', '.'] then st.dropLast
  else st ++ [seg]

/-- Modelled from the spec: resolve `.` and `..` over the segment list. -/
def cleanStack (segs : List Str) : List Str := segs.foldl stackStep []

/-- Modelled from the spec: the cleaned path keeps a trailing slash when the
input ends in `/` (its last segment is empty) or in a final `.` segment. -/
def hasTrailing (p : Str) : Bool :=
  decide ((splitSlash p).getLastD [] = ([] : Str)) ||
    decide ((splitSlash p).getLastD [] = ['.'])

/-- Modelled from the spec: rebuild the canonical path from the segments. -/
def render (st : List Str) (trailing : Bool) : Str :=
  '/' :: (List.intercalate ['/'] st ++ if trailing = true ∧ st ≠ [] then ['/'] else [])

/-- Modelled from the spec: `clean(path)` — `CleanPath` of path.go. -/
def clean (p : Str) : Str := render (cleanStack (splitSlash p)) (hasTrailing p)
theorem splitSlash_ne_nil (p : Str) : splitSlash p ≠ [] := by
  cases p with
  | nil => simp [splitSlash]
  | cons c rest =>
    unfold splitSlash
    split
    · simp
    · split <;> simp

theorem splitSlash_no_slash_mem (p : Str) : ∀ s ∈ splitSlash p, '/' ∉ s := by
  induction p with
  | nil => simp [splitSlash]
  | cons c rest ih =>
    unfold splitSlash
    by_cases hc : c = '/'
    · simp only [hc, if_pos rfl]
      intro s hs
      rcases List.mem_cons.mp hs with rfl | hs'
      · simp
      · exact ih s hs'
    · rw [if_neg hc]
      rcases hss : splitSlash rest with _ | ⟨s0, ss⟩
      · exact absurd hss (splitSlash_ne_nil rest)
      · intro s hs
        rcases List.mem_cons.mp hs with rfl | hs'
        · intro hmem
          rcases List.mem_cons.mp hmem with h | h
          · exact hc h.symm
          · exact ih s0 (by rw [hss]; simp) h
        · exact ih s (by rw [hss]; simp [hs'])

theorem splitSlash_append_slash {s : Str} (r : Str) (h : '/' ∉ s) :
    splitSlash (s ++ '/' :: r) = s :: splitSlash r := by
  induction s with
  | nil => simp [splitSlash]
  | cons c s' ih =>
    have hc : c ≠ '/' := fun hcc => h (by simp [hcc])
    have hs' : '/' ∉ s' := fun hmem => h (by simp [hmem])
    simp only [List.cons_append]
    rw [splitSlash, if_neg hc, ih hs']

theorem splitSlash_no_slash {s : Str} (h : '/' ∉ s) : splitSlash s = [s] := by
  induction s with
  | nil => simp [splitSlash]
  | cons c s' ih =>
    have hc : c ≠ '/' := fun hcc => h (by simp [hcc])
    have hs' : '/' ∉ s' := fun hmem => h (by simp [hmem])
    unfold splitSlash
    rw [if_neg hc, ih hs']

theorem splitSlash_intercalate :
    ∀ (st : List Str), st ≠ [] → (∀ s ∈ st, '/' ∉ s) →
      splitSlash (List.intercalate ['/'] st) = st := by
  intro st
  induction st with
  | nil => intro h; exact absurd rfl h
  | cons s st' ih =>
    intro _ hall
    cases st' with
    | nil =>
      simp only [List.intercalate]
      simpa using splitSlash_no_slash (hall s (by simp))
    | cons s2 st'' =>
      have : List.intercalate ['/'] (s :: s2 :: st'') =
          s ++ '/' :: List.intercalate ['/'] (s2 :: st'') := by
        simp [List.intercalate, List.intersperse]
      rw [this, splitSlash_append_slash _ (hall s (by simp)),
        ih (by simp) (fun t ht => hall t (by simp [ht]))]

theorem splitSlash_intercalate_slash :
    ∀ (st : List Str), st ≠ [] → (∀ s ∈ st, '/' ∉ s) →
      splitSlash (List.intercalate ['/'] st ++ ['/']) = st ++ [[]] := by
  intro st
  induction st with
  | nil => intro h; exact absurd rfl h
  | cons s st' ih =>
    intro _ hall
    cases st' with
    | nil =>
      simp only [List.intercalate]
      have := splitSlash_append_slash [] (hall s (by simp))
      simpa [splitSlash] using this
    | cons s2 st'' =>
      have h1 : List.intercalate ['/'] (s :: s2 :: st'') =
          s ++ '/' :: List.intercalate ['/'] (s2 :: st'') := by
        simp [List.intercalate, List.intersperse]
      rw [h1, List.append_assoc, List.cons_append,
        splitSlash_append_slash _ (hall s (by simp)),
        ih (by simp) (fun t ht => hall t (by simp [ht]))]
      simp

theorem cleanStack_skip_wf :
    ∀ (segs : List Str) (acc : List Str),
      (∀ s ∈ segs, s = [] ∨ (s ≠ ['.'] ∧ s ≠ ['.', '.'])) →
      segs.foldl stackStep acc = acc ++ segs.filter (fun s => s ≠ []) := by
  intro segs
  induction segs with
  | nil => intro acc _; simp
  | cons s rest ih =>
    intro acc hall
    simp only [List.foldl_cons]
    rcases hall s (by simp) with rfl | ⟨h1, h2⟩
    · rw [show stackStep acc [] = acc from by simp [stackStep]]
      rw [ih acc (fun t ht => hall t (by simp [ht]))]
      simp
    · by_cases hnil : s = []
      · subst hnil
        rw [show stackStep acc [] = acc from by simp [stackStep]]
        rw [ih acc (fun t ht => hall t (by simp [ht]))]
        simp
      · rw [show stackStep acc s = acc ++ [s] from by simp [stackStep, hnil, h1, h2]]
        rw [ih (acc ++ [s]) (fun t ht => hall t (by simp [ht]))]
        simp [hnil]

theorem cleanStack_wf_aux :
    ∀ (segs acc : List Str), (∀ s ∈ segs, '/' ∉ s) →
      (∀ s ∈ acc, s ≠ [] ∧ s ≠ ['.'] ∧ s ≠ ['.', '.'] ∧ '/' ∉ s) →
      ∀ s ∈ segs.foldl stackStep acc,
        s ≠ [] ∧ s ≠ ['.'] ∧ s ≠ ['.', '.'] ∧ '/' ∉ s := by
  intro segs
  induction segs with
  | nil => intro acc _ hacc; simpa using hacc
  | cons s rest ih =>
    intro acc h hacc t ht
    simp only [List.foldl_cons] at ht
    have hsl : '/' ∉ s := h s (by simp)
    have hrest : ∀ u ∈ rest, '/' ∉ u := fun u hu => h u (by simp [hu])
    refine ih (stackStep acc s) hrest ?_ t ht
    intro u hu
    unfold stackStep at hu
    split at hu
    · exact hacc u hu
    · split at hu
      · exact hacc u hu
      · split at hu
        · exact hacc u (List.dropLast_subset _ hu)
        · rcases List.mem_append.mp hu with hmem | hmem
          · exact hacc u hmem
          · rcases List.mem_singleton.mp hmem with rfl
            rename_i h1 h2 h3
            exact ⟨h1, h2, h3, hsl⟩

theorem cleanStack_wf (segs : List Str) (h : ∀ s ∈ segs, '/' ∉ s) :
    ∀ s ∈ cleanStack segs,
      s ≠ [] ∧ s ≠ ['.'] ∧ s ≠ ['.', '.'] ∧ '/' ∉ s := by
  unfold cleanStack
  exact cleanStack_wf_aux segs [] h (by simp)
theorem getLastD_cons_append_nil (st : List Str) :
    ([] :: (st ++ [[]])).getLastD [] = ([] : Str) := by
  rw [List.getLastD_cons]
  induction st with
  | nil => simp
  | cons a l ih => rw [List.cons_append, List.getLastD_cons]; simp [ih]

theorem getLastD_cons_ne (st : List Str) (h0 : st ≠ []) :
    ([] :: st).getLastD [] ∈ st := by
  rw [List.getLastD_cons]
  induction st with
  | nil => exact absurd rfl h0
  | cons a l ih =>
    cases l with
    | nil => simp
    | cons b l' =>
      rw [List.getLastD_cons]
      exact List.mem_cons_of_mem a (ih (by simp))

/-- C8: the path cleaner modelled from §4.1 is idempotent:
`clean (clean x) = clean x` for every input string. -/
theorem clean_idempotent (p : Str) : clean (clean p) = clean p := by
  have hwf := cleanStack_wf (splitSlash p) (splitSlash_no_slash_mem p)
  have hcp : clean p = render (cleanStack (splitSlash p)) (hasTrailing p) := rfl
  set st := cleanStack (splitSlash p) with hst
  set tr := hasTrailing p with htr
  by_cases h0 : st = []
  · rw [hcp, h0]
    have : render [] tr = ['/'] := by simp [render, List.intercalate]
    rw [this]
    decide
  · have hns : ∀ s ∈ st, '/' ∉ s := fun s hs => (hwf s hs).2.2.2
    rw [hcp]
    cases tr with
    | true =>
      have hrend : render st true = '/' :: (List.intercalate ['/'] st ++ ['/']) := by
        simp [render, h0]
      have hsp : splitSlash (render st true) = [] :: (st ++ [[]]) := by
        rw [hrend, splitSlash, if_pos rfl, splitSlash_intercalate_slash st h0 hns]
      have hcs : cleanStack (splitSlash (render st true)) = st := by
        rw [hsp]
        unfold cleanStack
        rw [cleanStack_skip_wf _ _ ?side]
        case side =>
          intro s hs
          rcases List.mem_cons.mp hs with rfl | hs'
          · exact Or.inl rfl
          · rcases List.mem_append.mp hs' with hm | hm
            · exact Or.inr ⟨(hwf s hm).2.1, (hwf s hm).2.2.1⟩
            · rcases List.mem_singleton.mp hm with rfl
              exact Or.inl rfl
        simp only [List.nil_append]
        rw [List.filter_cons, List.filter_append]
        simp only [decide_not]
        have h1 : st.filter (fun s => !decide (s = [])) = st := by
          rw [List.filter_eq_self]
          intro s hs
          simpa using (hwf s hs).1
        simp [h1]
      have hht : hasTrailing (render st true) = true := by
        unfold hasTrailing
        rw [hsp]
        rw [getLastD_cons_append_nil]
        simp
      show clean (render st true) = render st true
      unfold clean
      rw [hcs, hht]
    | false =>
      have hrend : render st false = '/' :: List.intercalate ['/'] st := by
        simp [render]
      have hsp : splitSlash (render st false) = [] :: st := by
        rw [hrend, splitSlash, if_pos rfl, splitSlash_intercalate st h0 hns]
      have hcs : cleanStack (splitSlash (render st false)) = st := by
        rw [hsp]
        unfold cleanStack
        rw [cleanStack_skip_wf _ _ ?side]
        case side =>
          intro s hs
          rcases List.mem_cons.mp hs with rfl | hs'
          · exact Or.inl rfl
          · exact Or.inr ⟨(hwf s hs').2.1, (hwf s hs').2.2.1⟩
        simp only [List.nil_append]
        rw [List.filter_cons]
        simp only [decide_not]
        have h1 : st.filter (fun s => !decide (s = [])) = st := by
          rw [List.filter_eq_self]
          intro s hs
          simpa using (hwf s hs).1
        simp [h1]
      have hht : hasTrailing (render st false) = false := by
        unfold hasTrailing
        rw [hsp]
        have hmem := getLastD_cons_ne st h0
        simp only [Bool.or_eq_false_iff, decide_eq_false_iff_not]
        exact ⟨(hwf _ hmem).1, (hwf _ hmem).2.1⟩
      show clean (render st false) = render st false
      unfold clean
      rw [hcs, hht]

/-- Does a `getValue` result carry a handler? -/
def gvHasHandle : GVRes → Bool
  | .res (some _) _ _ => true
  | _ => false

/-- Modelled from the spec: src/router.go has no `handleMethodNotAllowed`
configuration and no 405 path, so the enumeration is modelled from §4.3
steps 2–3 and §6: every method other than the requested one and other than
`OPTIONS` whose tree would match the path (its `getValue` returns a
handler), in registration order. -/
def allowedMethods (trees : List (Str × RNode)) (fuel : Nat)
    (req path : Str) : List Str :=
  (trees.filter (fun t => (!decide (t.1 = req)) &&
    (!decide (t.1 = "OPTIONS".toList)) &&
    gvHasHandle (getValueF fuel t.2 path none))).map Prod.fst

/-- Modelled from the spec: the `Allow` header is the comma-space-separated
list of the allowed methods. -/
def joinAllow (ms : List Str) : Str := List.intercalate ", ".toList ms

/-- Modelled from the spec: the 405 decision — when `handleMethodNotAllowed`
is enabled and the enumeration is non-empty, respond 405 with the `Allow`
header listing the allowed methods with `OPTIONS` appended at the end. -/
def dispatchMNA (trees : List (Str × RNode)) (fuel : Nat)
    (req path : Str) : Option Str :=
  let allow := allowedMethods trees fuel req path
  if allow = [] then none
  else some (joinAllow (allow ++ ["OPTIONS".toList]))

/-- Splitting on `','` (mirror of `splitSlash`). -/
def splitComma : Str → List Str
  | [] => [[]]
  | c :: rest =>
    if c = ',' then [] :: splitComma rest
    else
      match splitComma rest with
      | s :: ss => (c :: s) :: ss
      | [] => [[c]]

/-- Strip the single space following a comma. -/
def deSpace : Str → Str
  | ' ' :: u => u
  | u => u

/-- Parse a comma-space-separated header back into its items. -/
def splitCommaSpace (s : Str) : List Str := (splitComma s).map deSpace

theorem splitComma_append {s : Str} (r : Str) (h : ',' ∉ s) :
    splitComma (s ++ ',' :: r) = s :: splitComma r := by
  induction s with
  | nil => simp [splitComma]
  | cons c s' ih =>
    have hc : c ≠ ',' := fun hcc => h (by simp [hcc])
    have hs' : ',' ∉ s' := fun hmem => h (by simp [hmem])
    simp only [List.cons_append]
    rw [splitComma, if_neg hc, ih hs']

theorem splitComma_no_comma {s : Str} (h : ',' ∉ s) : splitComma s = [s] := by
  induction s with
  | nil => simp [splitComma]
  | cons c s' ih =>
    have hc : c ≠ ',' := fun hcc => h (by simp [hcc])
    have hs' : ',' ∉ s' := fun hmem => h (by simp [hmem])
    rw [splitComma, if_neg hc, ih hs']

theorem splitComma_joinAllow :
    ∀ (parts : List Str), parts ≠ [] → (∀ s ∈ parts, ',' ∉ s) →
      splitComma (joinAllow parts) =
        parts.head! :: (parts.tail.map (fun s => ' ' :: s)) := by
  intro parts
  induction parts with
  | nil => intro h; exact absurd rfl h
  | cons s parts' ih =>
    intro _ hall
    cases parts' with
    | nil =>
      simp only [joinAllow, List.intercalate]
      simpa using splitComma_no_comma (hall s (by simp))
    | cons s2 rest =>
      have h1 : joinAllow (s :: s2 :: rest) =
          s ++ ',' :: ' ' :: joinAllow (s2 :: rest) := by
        simp [joinAllow, List.intercalate, List.intersperse]
      rw [h1, splitComma_append _ (hall s (by simp))]
      have h2 := ih (by simp) (fun t ht => hall t (by simp [ht]))
      rw [splitComma, if_neg (by decide : ¬(' ' = ',')), h2]
      simp

theorem deSpace_no_space {s : Str} (h : ' ' ∉ s) : deSpace s = s := by
  unfold deSpace
  split
  · simp at h
  · rfl

set_option maxHeartbeats 1600000 in
/-- C2: when the modelled method-not-allowed branch fires, the `Allow`
header parses back (on comma-space) to exactly the methods whose trees would
match the path — no more, no fewer — with `OPTIONS` appended at the end
exactly once. -/
theorem allow_header_exact (trees : List (Str × RNode)) (fuel : Nat)
    (req path : Str) (hdr : Str)
    (hwfm : ∀ t ∈ trees, ',' ∉ t.1 ∧ ' ' ∉ t.1)
    (h405 : dispatchMNA trees fuel req path = some hdr) :
    splitCommaSpace hdr = allowedMethods trees fuel req path ++ ["OPTIONS".toList] ∧
    (∀ m, m ∈ allowedMethods trees fuel req path ↔
      ∃ root, (m, root) ∈ trees ∧ m ≠ req ∧ m ≠ "OPTIONS".toList ∧
        gvHasHandle (getValueF fuel root path none) = true) ∧
    (splitCommaSpace hdr).count "OPTIONS".toList = 1 ∧
    (splitCommaSpace hdr).getLast? = some "OPTIONS".toList := by
  unfold dispatchMNA at h405
  simp only at h405
  split at h405
  · exact absurd h405 (by simp)
  · rename_i hne
    rw [Option.some.injEq] at h405
    subst h405
    set allow := allowedMethods trees fuel req path with hallow
    have hmemc : ∀ m ∈ allow, ',' ∉ m ∧ ' ' ∉ m ∧ m ≠ req ∧
        m ≠ "OPTIONS".toList := by
      intro m hm
      rw [hallow] at hm
      unfold allowedMethods at hm
      rcases List.mem_map.mp hm with ⟨t, ht, rfl⟩
      rcases List.mem_filter.mp ht with ⟨htr, hpred⟩
      simp only [Bool.and_eq_true, Bool.not_eq_eq_eq_not, Bool.not_true,
        decide_eq_false_iff_not] at hpred
      exact ⟨(hwfm t htr).1, (hwfm t htr).2, hpred.1.1, hpred.1.2⟩
    have hparts : ∀ s ∈ allow ++ ["OPTIONS".toList], ',' ∉ s := by
      intro s hs
      rcases List.mem_append.mp hs with h | h
      · exact (hmemc s h).1
      · rcases List.mem_singleton.mp h with rfl
        decide
    have hsplit := splitComma_joinAllow (allow ++ ["OPTIONS".toList])
      (by simp) hparts
    have hss : splitCommaSpace (joinAllow (allow ++ ["OPTIONS".toList])) =
        allow ++ ["OPTIONS".toList] := by
      unfold splitCommaSpace
      rw [hsplit, List.map_cons, List.map_map]
      have h1 : (deSpace ∘ fun s => ' ' :: s) = id := funext fun s => rfl
      rw [h1, List.map_id]
      cases hal : allow with
      | nil => exact absurd hal hne
      | cons a al =>
        simp only [List.cons_append, List.head!_cons, List.tail_cons]
        rw [deSpace_no_space (hmemc a (by rw [hal]; simp)).2.1]
    have hopt : "OPTIONS".toList ∉ allow := by
      intro hmem
      exact (hmemc _ hmem).2.2.2 rfl
    refine ⟨hss, ?_, ?_, ?_⟩
    · intro m
      rw [hallow]
      unfold allowedMethods
      constructor
      · intro hm
        rcases List.mem_map.mp hm with ⟨t, ht, rfl⟩
        rcases List.mem_filter.mp ht with ⟨htr, hpred⟩
        simp only [Bool.and_eq_true, Bool.not_eq_eq_eq_not, Bool.not_true,
          decide_eq_false_iff_not] at hpred
        exact ⟨t.2, htr, hpred.1.1, hpred.1.2, hpred.2⟩
      · rintro ⟨root, htr, h1, h2, h3⟩
        refine List.mem_map.mpr ⟨(m, root), List.mem_filter.mpr ⟨htr, ?_⟩, rfl⟩
        simp only [Bool.and_eq_true, Bool.not_eq_eq_eq_not, Bool.not_true,
          decide_eq_false_iff_not]
        exact ⟨⟨h1, h2⟩, h3⟩
    · rw [hss, List.count_append]
      rw [List.count_eq_zero.mpr hopt]
      simp [List.count_cons]
    · rw [hss]
      simp

/-- Witness for C2: only POST registered, request GET /x gives 405 with
`Allow: POST, OPTIONS`. -/
theorem allow_header_exact_witness :
    dispatchMNA [("POST".toList, (addRouteF 8 emptyNode "/x".toList 1).1)] 8
      "GET".toList "/x".toList = some ("POST, OPTIONS".toList) ∧
    splitCommaSpace ("POST, OPTIONS".toList) =
      allowedMethods [("POST".toList, (addRouteF 8 emptyNode "/x".toList 1).1)] 8
        "GET".toList "/x".toList ++ ["OPTIONS".toList] := by
  refine ⟨by decide, ?_⟩
  exact (allow_header_exact
    [("POST".toList, (addRouteF 8 emptyNode "/x".toList 1).1)] 8
    "GET".toList "/x".toList ("POST, OPTIONS".toList)
    (by decide) (by decide)).1

end Httprouter
